import Mathlib

/-!
Verification of the community-feed prototype core.

The development embeds the backend core of the repository:
the comment-tree grouping pass `build_comment_tree`, the leaderboard
aggregation `leaderboard` (both from EXPLAINER.md, which carries the
backend's Python code), the `like` endpoint state transition, and the
frontend like/unlike error handling from App.jsx / PostDetail.jsx.

Timestamps are modelled as integers counting seconds; `timedelta(hours=24)`
is 86400 seconds.
-/

namespace CommunityFeed

open List

/-- Comment record, following the Django `Comment` model:
post, author, parent (NULL for roots), content, created_at, and the
annotated like_count joined by the retrieve view. -/
structure CommentRec where
id : Nat
postId : Nat
authorId : Nat
parent : Option Nat
content : String
createdAt : Int
likeCount : Nat
deriving DecidableEq

/-- One step of the loop body of `build_comment_tree`:
`if parent_id not in tree: tree[parent_id] = []` followed by
`tree[parent_id].append(comment)`.  The Python dict is embedded as an
association list in key-insertion order; updating an existing key keeps
its position, a new key is appended at the end, exactly as Python dicts
behave. -/
def treeInsert (t : List (Option Nat × List CommentRec)) (pid : Option Nat)
    (c : CommentRec) : List (Option Nat × List CommentRec) :=
  match t with
  | [] => [(pid, [c])]
  | (k, b) :: rest =>
      if k = pid then (k, b ++ [c]) :: rest else (k, b) :: treeInsert rest pid c

/-- Embeds `build_comment_tree(comments)` from EXPLAINER.md: a single pass
over the flat comment list, grouping the comments by `parent_id`. -/
def build_comment_tree (cs : List CommentRec) :
    List (Option Nat × List CommentRec) :=
  cs.foldl (fun t c => treeInsert t c.parent c) []

/-- Lookup of a bucket in the grouping dict; a missing key yields the
empty bucket. -/
def treeGet (t : List (Option Nat × List CommentRec)) (pid : Option Nat) :
    List CommentRec :=
  match t.find? (fun e => e.1 == pid) with
  | some e => e.2
  | none => []

/-- Comment node of the materialized forest: the record together with the
ordered children, matching the spec's CommentNode. -/
inductive CommentNode : Type where
| node (record : CommentRec) (children : List CommentNode) : CommentNode

def CommentNode.record : CommentNode → CommentRec
  | .node r _ => r

def CommentNode.children : CommentNode → List CommentNode
  | .node _ cs => cs

/-- Modelled from the spec: the tree-materialization second pass of the
TreeBuilder is not under src/ (the retrieve view's serialization is cut
off in EXPLAINER.md).  Following section 4.1 of the spec, materialization
starts from the null-parent bucket and attaches each node's children by
looking up its own id in the grouping.  Recursion is paced by a fuel
argument; `build_forest` supplies fuel `length + 1`, which suffices for
every reachable node because a reachable parent chain never repeats a
comment. -/
def materialize (cs : List CommentRec) : Nat → Option Nat → List CommentNode
  | 0, _ => []
  | fuel + 1, pid =>
      (treeGet (build_comment_tree cs) pid).map
        (fun c => .node c (materialize cs fuel (some c.id)))

/-- Forest produced for a post: the null-parent bucket materialized
recursively (spec section 4.1). -/
def build_forest (cs : List CommentRec) : List CommentNode :=
  materialize cs (cs.length + 1) none

/-- Transitive-reflexive descendant relation on materialized nodes. -/
inductive Subnode : CommentNode → CommentNode → Prop where
| refl (n : CommentNode) : Subnode n n
| child {n c : CommentNode} {r : CommentRec} {ns : List CommentNode} :
    c ∈ ns → Subnode n c → Subnode n (.node r ns)

/-- Membership of a node anywhere in a forest. -/
def InForest (n : CommentNode) (f : List CommentNode) : Prop :=
  ∃ r ∈ f, Subnode n r

/-- Parent chain from the bucket id currently being materialized back up
to a root: the head owns the current bucket id, each element's parent is
the next element, and the last element is a root. -/
def IsChain : Option Nat → List CommentRec → Prop
  | pid, [] => pid = none
  | pid, x :: rest => pid = some x.id ∧ IsChain x.parent rest

/-- Like event as consumed by the leaderboard view, one row of the
`PostLike` / `CommentLike` join: the liking user, the credited author
(`post__author` resp. `comment__author`), and `created_at`. -/
structure LikeEvent where
actor : Nat
author : Nat
createdAt : Int
deriving DecidableEq

/-- Window predicate of the leaderboard view:
`created_at__gte = last_24h` with `last_24h = now - timedelta(hours=24)`,
where `now` is the clock value the view reads at entry. -/
def inWindow (now : Int) (e : LikeEvent) : Bool :=
  decide (now - 86400 ≤ e.createdAt)

/-- Embeds `user_karma[uid] = user_karma.get(uid, 0) + karma` on the
Python dict `user_karma`, represented as an association list in
key-insertion order: an existing key keeps its position and accumulates,
a new key is appended. -/
def upsertAdd (d : List (Nat × Nat)) (k v : Nat) : List (Nat × Nat) :=
  match d with
  | [] => [(k, v)]
  | (k1, v1) :: rest =>
      if k1 = k then (k1, v1 + v) :: rest else (k1, v1) :: upsertAdd rest k v

/-- Grouping with counts, embedding
`.values(author).annotate(karma=Count(id))`: one entry per credited
author, in order of first appearance in the event stream, counting the
group's rows. -/
def groupCount (es : List LikeEvent) : List (Nat × Nat) :=
  es.foldl (fun d e => upsertAdd d e.author 1) []

/-- Step of the leaderboard view that computes `post_karma`: qualifying
post-likes grouped by `post__author`, each group weighted
`Count(id) * 5`. -/
def post_karma (now : Int) (postLikes : List LikeEvent) : List (Nat × Nat) :=
  (groupCount (postLikes.filter (inWindow now))).map (fun p => (p.1, p.2 * 5))

/-- Step of the leaderboard view that computes `comment_karma`:
qualifying comment-likes grouped by `comment__author`, weighted
`Count(id)`. -/
def comment_karma (now : Int) (commentLikes : List LikeEvent) :
    List (Nat × Nat) :=
  groupCount (commentLikes.filter (inWindow now))

/-- Embeds the two merge loops of the leaderboard view: iterate over the
`post_karma` entries and then the `comment_karma` entries, accumulating
into the `user_karma` dict. -/
def user_karma (now : Int) (postLikes commentLikes : List LikeEvent) :
    List (Nat × Nat) :=
  (post_karma now postLikes ++ comment_karma now commentLikes).foldl
    (fun d p => upsertAdd d p.1 p.2) []

/-- Stable insertion of an entry into a karma-descending list: the entry
is placed after every strictly greater karma and before every equal or
smaller one.  Used to embed Python's stable sort. -/
def insertDesc (x : Nat × Nat) : List (Nat × Nat) → List (Nat × Nat)
  | [] => [x]
  | y :: ys => if x.2 < y.2 then y :: insertDesc x ys else x :: y :: ys

/-- Embeds `sorted(user_karma.items(), key=lambda x: x[1],
reverse=True)`.  Python's sort is stable, and a stable sort by a fixed
comparison is a unique permutation, so the stable insertion sort below
produces exactly the list Python produces: descending karma, ties kept
in dict insertion order. -/
def sortDesc (l : List (Nat × Nat)) : List (Nat × Nat) :=
  l.foldr insertDesc []

/-- Embeds `sorted_users = sorted(user_karma.items(), key=lambda x: x[1],
reverse=True)[:5]`: entries ordered by descending karma (ties keep dict
insertion order, by stability) and truncated to the top 5. -/
def sorted_users (now : Int) (postLikes commentLikes : List LikeEvent) :
    List (Nat × Nat) :=
  (sortDesc (user_karma now postLikes commentLikes)).take 5

/-- Embeds the `leaderboard(request)` view of views.py.  The `now`
argument models the value of the internal `timezone.now()` call at line
74 of the view: the Django view takes no time parameter and reads the
wall clock itself. -/
def leaderboard (now : Int) (postLikes commentLikes : List LikeEvent) :
    List (Nat × Nat) :=
  sorted_users now postLikes commentLikes

/-- Outcome of the like endpoint as surfaced to the HTTP caller. -/
inductive LikeOutcome : Type where
| success (detail : String) : LikeOutcome
| conflict (detail : String) : LikeOutcome
deriving DecidableEq

/-- Embeds the fixed `like(self, request, pk)` view: the persisted set of
(user, post) like pairs is the state, and `get_or_create` either finds
the existing row (`created = False`, answered with the 400 conflict
response `Already liked this post`) or inserts the new row and answers
`Post liked successfully`.  The sequential semantics of the atomic
`get_or_create` under the unique constraint is the check-and-insert on
the state. -/
def like (likes : List (Nat × Nat)) (user post : Nat) :
    List (Nat × Nat) × LikeOutcome :=
  if (user, post) ∈ likes then
    (likes, .conflict ("Already liked this post"))
  else
    (likes ++ [(user, post)], .success ("Post liked successfully"))

/-- Substring test on character lists, embedding JavaScript's
`String.prototype.includes`. -/
def containsSub (needle : List Char) : List Char → Bool
  | [] => needle.isEmpty
  | c :: rest => needle.isPrefixOf (c :: rest) || containsSub needle rest

/-- Embeds the catch block of `handleLikePost` in App.jsx:
`if (!err.message.includes(already)) setError(err.message)` — an error
message containing the marker leaves the error state unchanged, any
other message replaces it. -/
def handleLikePostCatch (message : List Char) (errState : Option (List Char)) :
    Option (List Char) :=
  if containsSub ("Already".toList) message then errState else some message

/-- Embeds the catch block of `handleLikePost` in PostDetail.jsx, whose
code is identical to the one in App.jsx. -/
def handleLikePostDetailCatch (message : List Char)
    (errState : Option (List Char)) : Option (List Char) :=
  if containsSub ("Already".toList) message then errState else some message

/-- Embeds the catch block of `handleLikeComment` in PostDetail.jsx, the
same pattern again. -/
def handleLikeCommentCatch (message : List Char)
    (errState : Option (List Char)) : Option (List Char) :=
  if containsSub ("Already".toList) message then errState else some message

/-! Helper lemmas about the grouping pass. -/

theorem treeGet_nil (pid : Option Nat) :
    treeGet [] pid = [] := rfl

theorem treeGet_cons (e : Option Nat × List CommentRec)
    (t : List (Option Nat × List CommentRec)) (pid : Option Nat) :
    treeGet (e :: t) pid = if e.1 = pid then e.2 else treeGet t pid := by
  by_cases h : e.1 = pid
  · simp [treeGet, List.find?_cons, h]
  · simp only [treeGet, List.find?_cons]
    have : (e.1 == pid) = false := by simpa using h
    simp [this, h]

theorem treeGet_treeInsert (t : List (Option Nat × List CommentRec))
    (k : Option Nat) (c : CommentRec) (pid : Option Nat) :
    treeGet (treeInsert t k c) pid =
      if k = pid then treeGet t pid ++ [c] else treeGet t pid := by
  induction t with
  | nil =>
      by_cases h : k = pid <;>
        simp [treeInsert, treeGet_cons, treeGet_nil, h]
  | cons hd rest ih =>
      obtain ⟨k1, b⟩ := hd
      by_cases h1 : k1 = k
      · subst h1
        by_cases h2 : k1 = pid <;>
          simp [treeInsert, treeGet_cons, h2]
      · by_cases h2 : k1 = pid
        · subst h2
          have hk : ¬ k = k1 := fun h => h1 h.symm
          simp [treeInsert, treeGet_cons, h1, hk]
        · simp [treeInsert, treeGet_cons, h1, h2, ih]

theorem treeGet_foldl (cs : List CommentRec)
    (t : List (Option Nat × List CommentRec)) (pid : Option Nat) :
    treeGet (cs.foldl (fun t c => treeInsert t c.parent c) t) pid =
      treeGet t pid ++ cs.filter (fun c => c.parent == pid) := by
  induction cs generalizing t with
  | nil => simp
  | cons c rest ih =>
      by_cases h : c.parent = pid
      · simp [ih, treeGet_treeInsert, h, List.filter_cons]
      · have hb : (c.parent == pid) = false := by simpa using h
        simp [ih, treeGet_treeInsert, h, List.filter_cons, hb]

/-- Bucket of the grouping produced by `build_comment_tree`: exactly the
subsequence of the input whose parent is the key, in input order. -/
theorem treeGet_build_comment_tree (cs : List CommentRec) (pid : Option Nat) :
    treeGet (build_comment_tree cs) pid =
      cs.filter (fun c => c.parent == pid) := by
  simp [build_comment_tree, treeGet_foldl, treeGet_nil]

theorem materialize_succ (cs : List CommentRec) (fuel : Nat)
    (pid : Option Nat) :
    materialize cs (fuel + 1) pid =
      (cs.filter (fun c => c.parent == pid)).map
        (fun c => .node c (materialize cs fuel (some c.id))) := by
  simp [materialize, treeGet_build_comment_tree]

theorem map_record_materialize (cs : List CommentRec) (pid : Option Nat)
    (fuel : Nat) (h : 1 ≤ fuel) :
    (materialize cs fuel pid).map CommentNode.record =
      cs.filter (fun c => c.parent == pid) := by
  obtain ⟨f, rfl⟩ : ∃ f, fuel = f + 1 :=
    ⟨fuel - 1, by omega⟩
  have h2 : (CommentNode.record ∘
      fun c : CommentRec => CommentNode.node c (materialize cs f (some c.id)))
        = fun c => c := rfl
  rw [materialize_succ, List.map_map, h2, List.map_id']

theorem chain_parent_mem (pid : Option Nat) (seen : List CommentRec)
    (h : IsChain pid seen) :
    ∀ d ∈ seen, d.parent = none ∨ ∃ e ∈ seen, d.parent = some e.id := by
  induction seen generalizing pid with
  | nil => simp
  | cons x rest ih =>
      obtain ⟨hx, hrest⟩ := h
      intro d hd
      rcases List.mem_cons.mp hd with rfl | hd
      · cases rest with
        | nil => exact Or.inl hrest
        | cons y t => exact Or.inr ⟨y, by simp, hrest.1⟩
      · rcases ih x.parent hrest d hd with h1 | ⟨e, he, h2⟩
        · exact Or.inl h1
        · exact Or.inr ⟨e, List.mem_cons_of_mem _ he, h2⟩

theorem id_inj (cs : List CommentRec)
    (hids : (cs.map CommentRec.id).Nodup) {a b : CommentRec}
    (ha : a ∈ cs) (hb : b ∈ cs) (h : a.id = b.id) : a = b :=
  List.inj_on_of_nodup_map hids ha hb h

/-- Adequacy of the fuel-paced materialization: along every call whose
bucket id sits at the end of a duplicate-free ancestor chain, the fuel
never runs out, so every node anywhere in the produced forest carries
its complete children bucket. -/
theorem materialize_full (cs : List CommentRec)
    (hids : (cs.map CommentRec.id).Nodup) :
    ∀ fuel (pid : Option Nat) (seen : List CommentRec),
      IsChain pid seen → seen ⊆ cs → seen.Nodup →
      (∀ d ∈ cs, d.parent = pid → d ∉ seen) →
      cs.length + 1 ≤ fuel + seen.length →
      ∀ m ∈ materialize cs fuel pid, ∀ n, Subnode n m →
        n.children.map CommentNode.record =
          cs.filter (fun x => x.parent == some n.record.id) := by
  intro fuel
  induction fuel with
  | zero =>
      intro pid seen _ hsub hnd _ hlen m hm
      exfalso
      have : seen.length ≤ cs.length :=
        (List.subperm_of_subset hnd hsub).length_le
      omega
  | succ f ih =>
      intro pid seen hchain hsub hnd hfresh hlen m hm n hsn
      rw [materialize_succ] at hm
      obtain ⟨c, hcf, rfl⟩ := List.mem_map.mp hm
      have hcmem : c ∈ cs := List.mem_of_mem_filter hcf
      have hcpar : c.parent = pid := by
        simpa using List.of_mem_filter hcf
      have hcnot : c ∉ seen := hfresh c hcmem hcpar
      have hchain2 : IsChain (some c.id) (c :: seen) :=
        ⟨rfl, by rw [hcpar]; exact hchain⟩
      have hsub2 : (c :: seen) ⊆ cs := by
        intro x hx
        rcases List.mem_cons.mp hx with rfl | hx
        · exact hcmem
        · exact hsub hx
      have hnd2 : (c :: seen).Nodup := List.nodup_cons.mpr ⟨hcnot, hnd⟩
      have hfresh2 : ∀ d ∈ cs, d.parent = some c.id → d ∉ c :: seen := by
        intro d hd hdp hdmem
        rcases List.mem_cons.mp hdmem with rfl | hdseen
        · cases seen with
          | nil =>
              have hnone : pid = none := hchain
              rw [hcpar, hnone] at hdp
              exact Option.noConfusion hdp
          | cons s rest =>
              have hpid : pid = some s.id := hchain.1
              rw [hcpar, hpid] at hdp
              have : s = d :=
                id_inj cs hids (hsub (by simp)) hd
                  (Option.some.inj hdp)
              exact hcnot (this ▸ List.mem_cons_self s rest)
        · rcases chain_parent_mem pid seen hchain d hdseen with h1 | ⟨e, he, h2⟩
          · rw [h1] at hdp; exact Option.noConfusion hdp
          · rw [h2] at hdp
            have : e = c :=
              id_inj cs hids (hsub he) hcmem (Option.some.inj hdp)
            exact hcnot (this ▸ he)
      have hlen2 : cs.length + 1 ≤ f + (c :: seen).length := by
        simp only [List.length_cons]
        omega
      cases hsn with
      | refl =>
          simp only [CommentNode.children, CommentNode.record]
          have hslen : (c :: seen).length ≤ cs.length :=
            (List.subperm_of_subset hnd2 hsub2).length_le
          have hf : 1 ≤ f := by
            simp only [List.length_cons] at hslen hlen2
            omega
          exact map_record_materialize cs (some c.id) f hf
      | child hc hsub' =>
          exact ih (some c.id) (c :: seen) hchain2 hsub2 hnd2 hfresh2 hlen2
            _ hc n hsub'

/-- Records carrying a dangling parent reference never appear anywhere in
the materialized output, because the only buckets ever consulted are the
root bucket and buckets keyed by the id of an existing comment. -/
theorem dangling_not_in_materialize (cs : List CommentRec) (c : CommentRec)
    (p : Nat) (hc : c.parent = some p) (hp : p ∉ cs.map CommentRec.id) :
    ∀ fuel (pid : Option Nat),
      (pid = none ∨ ∃ x ∈ cs, pid = some x.id) →
      ∀ m ∈ materialize cs fuel pid, ∀ n, Subnode n m → n.record ≠ c := by
  intro fuel
  induction fuel with
  | zero => intro pid _ m hm; simp [materialize] at hm
  | succ f ih =>
      intro pid hpid m hm n hsn
      rw [materialize_succ] at hm
      obtain ⟨d, hdf, rfl⟩ := List.mem_map.mp hm
      have hdmem : d ∈ cs := List.mem_of_mem_filter hdf
      have hdpar : d.parent = pid := by
        simpa using List.of_mem_filter hdf
      cases hsn with
      | refl =>
          simp only [CommentNode.record]
          intro hdc
          subst hdc
          rcases hpid with rfl | ⟨x, hx, rfl⟩
          · rw [hdpar] at hc; exact Option.noConfusion hc
          · rw [hdpar] at hc
            have hxp : x.id = p := Option.some.inj hc
            exact hp (hxp ▸ List.mem_map_of_mem CommentRec.id hx)
      | child hcm hsub' =>
          exact ih (some d.id) (Or.inr ⟨d, hdmem, rfl⟩) _ hcm n hsub'

/-- Self-referential records never appear anywhere in the materialized
output when ids are unique: their bucket key is their own id, which is
only consulted after they are already materialized. -/
theorem self_parent_not_in_materialize (cs : List CommentRec)
    (c : CommentRec) (hmem : c ∈ cs) (hself : c.parent = some c.id)
    (hids : (cs.map CommentRec.id).Nodup) :
    ∀ fuel (pid : Option Nat), pid ≠ some c.id →
      ∀ m ∈ materialize cs fuel pid, ∀ n, Subnode n m → n.record ≠ c := by
  intro fuel
  induction fuel with
  | zero => intro pid _ m hm; simp [materialize] at hm
  | succ f ih =>
      intro pid hpid m hm n hsn
      rw [materialize_succ] at hm
      obtain ⟨d, hdf, rfl⟩ := List.mem_map.mp hm
      have hdmem : d ∈ cs := List.mem_of_mem_filter hdf
      have hdpar : d.parent = pid := by
        simpa using List.of_mem_filter hdf
      have hdc : d ≠ c := by
        intro hdc
        subst hdc
        rw [hdpar] at hself
        exact hpid hself
      cases hsn with
      | refl =>
          simp only [CommentNode.record]
          exact hdc
      | child hcm hsub' =>
          have hne : some d.id ≠ some c.id := by
            intro h
            exact hdc (id_inj cs hids hdmem hmem (Option.some.inj h))
          exact ih (some d.id) hne _ hcm n hsub'

/-! Helper lemmas about the karma aggregation. -/

theorem snd_sum_upsertAdd (d : List (Nat × Nat)) (k v : Nat) :
    ((upsertAdd d k v).map Prod.snd).sum = (d.map Prod.snd).sum + v := by
  induction d with
  | nil => simp [upsertAdd]
  | cons hd rest ih =>
      obtain ⟨k1, v1⟩ := hd
      by_cases h : k1 = k <;> simp [upsertAdd, h, ih] <;> omega

theorem snd_sum_merge_foldl (es : List (Nat × Nat)) :
    ∀ d : List (Nat × Nat),
      ((es.foldl (fun d p => upsertAdd d p.1 p.2) d).map Prod.snd).sum =
        (d.map Prod.snd).sum + (es.map Prod.snd).sum := by
  induction es with
  | nil => simp
  | cons e rest ih =>
      intro d
      simp only [List.foldl_cons, ih, snd_sum_upsertAdd, List.map_cons,
        List.sum_cons]
      omega

theorem snd_sum_groupCount (es : List LikeEvent) :
    ((groupCount es).map Prod.snd).sum = es.length := by
  suffices h : ∀ d : List (Nat × Nat),
      ((es.foldl (fun d e => upsertAdd d e.author 1) d).map Prod.snd).sum =
        (d.map Prod.snd).sum + es.length by
    simpa [groupCount] using h []
  induction es with
  | nil => simp
  | cons e rest ih =>
      intro d
      simp only [List.foldl_cons, ih, snd_sum_upsertAdd, List.length_cons]
      omega

theorem snd_sum_post_karma (now : Int) (postLikes : List LikeEvent) :
    ((post_karma now postLikes).map Prod.snd).sum =
      5 * (postLikes.filter (inWindow now)).length := by
  have h : ((post_karma now postLikes).map Prod.snd) =
      ((groupCount (postLikes.filter (inWindow now))).map Prod.snd).map
        (fun v => v * 5) := by
    simp [post_karma, List.map_map, Function.comp]
  rw [h]
  have h2 : ∀ l : List Nat, ((l.map (fun v => v * 5)).sum) = 5 * l.sum := by
    intro l
    induction l with
    | nil => simp
    | cons a t ih => simp [ih]; ring
  rw [h2, snd_sum_groupCount]

/-! Helper lemmas about the stable descending sort. -/

theorem self_sublist_insertDesc (x : Nat × Nat) (t : List (Nat × Nat)) :
    t <+ insertDesc x t := by
  induction t with
  | nil => simp [insertDesc]
  | cons y ys ih =>
      by_cases h : x.2 < y.2
      · simpa [insertDesc, h] using List.Sublist.cons₂ y ih
      · simp [insertDesc, h]

theorem insertDesc_split (x : Nat × Nat) (t : List (Nat × Nat)) :
    ∃ t1 t2, insertDesc x t = t1 ++ x :: t2 ∧ t = t1 ++ t2 ∧
      ∀ y ∈ t1, x.2 < y.2 := by
  induction t with
  | nil => exact ⟨[], [], rfl, rfl, by simp⟩
  | cons y ys ih =>
      by_cases h : x.2 < y.2
      · obtain ⟨t1, t2, h1, h2, h3⟩ := ih
        refine ⟨y :: t1, t2, by simp [insertDesc, h, h1], by simp [h2], ?_⟩
        intro z hz
        rcases List.mem_cons.mp hz with rfl | hz
        · exact h
        · exact h3 z hz
      · exact ⟨[], y :: ys, by simp [insertDesc, h], rfl, by simp⟩

theorem mem_sortDesc {a : Nat × Nat} {l : List (Nat × Nat)}
    (h : a ∈ l) : a ∈ sortDesc l := by
  induction l with
  | nil => cases h
  | cons x xs ih =>
      have hstep : sortDesc (x :: xs) = insertDesc x (sortDesc xs) := rfl
      rcases List.mem_cons.mp h with rfl | h
      · obtain ⟨t1, t2, h1, _, _⟩ := insertDesc_split a (sortDesc xs)
        rw [hstep, h1]
        simp
      · obtain ⟨t1, t2, h1, h2, _⟩ := insertDesc_split x (sortDesc xs)
        rw [hstep, h1]
        have := ih h
        rw [h2] at this
        rcases List.mem_append.mp this with h3 | h3
        · exact List.mem_append.mpr (Or.inl h3)
        · exact List.mem_append.mpr (Or.inr (List.mem_cons_of_mem _ h3))

/-- Stability of the embedded sort: two entries with equal karma keep
their relative order from the unsorted list. -/
theorem sortDesc_stable (u v : Nat) (k : Nat) :
    ∀ l : List (Nat × Nat), [(u, k), (v, k)] <+ l →
      [(u, k), (v, k)] <+ sortDesc l := by
  intro l
  induction l with
  | nil => intro h; simp at h
  | cons x xs ih =>
      intro h
      have hstep : sortDesc (x :: xs) = insertDesc x (sortDesc xs) := rfl
      rw [hstep]
      cases h with
      | cons _ h2 =>
          exact (ih h2).trans (self_sublist_insertDesc x (sortDesc xs))
      | cons₂ h2 =>
          rename_i h2
          have hv : (v, k) ∈ sortDesc xs :=
            mem_sortDesc (List.singleton_sublist.mp h2)
          obtain ⟨t1, t2, h1, hsplit, hgt⟩ :=
            insertDesc_split (u, k) (sortDesc xs)
          rw [h1]
          have hvt2 : (v, k) ∈ t2 := by
            rw [hsplit] at hv
            rcases List.mem_append.mp hv with h3 | h3
            · exact absurd (hgt _ h3) (by simp)
            · exact h3
          have hsub : [(u, k), (v, k)] <+ (u, k) :: t2 :=
            List.Sublist.cons₂ _ (List.singleton_sublist.mpr hvt2)
          exact hsub.trans (List.sublist_append_right t1 ((u, k) :: t2))

/-! Claim theorems. -/

/-- C1 counterexample: the claim says ties are broken by ascending
userId.  Here users 9 and 1 both earn 5 in-window karma (one post-like
for user 9, five comment-likes for user 1); the ascending-userId policy
would output user 1 first, but the code outputs user 9 first, because
the sort is only by karma and user 9 enters the karma dict first. -/
theorem leaderboard_tie_not_ascending_cex :
    leaderboard 1000000 [⟨100, 9, 996400⟩]
        [⟨101, 1, 996400⟩, ⟨102, 1, 996400⟩, ⟨103, 1, 996400⟩,
         ⟨104, 1, 996400⟩, ⟨105, 1, 996400⟩] = [(9, 5), (1, 5)] ∧
    (leaderboard 1000000 [⟨100, 9, 996400⟩]
        [⟨101, 1, 996400⟩, ⟨102, 1, 996400⟩, ⟨103, 1, 996400⟩,
         ⟨104, 1, 996400⟩, ⟨105, 1, 996400⟩]).map Prod.fst ≠ [1, 9] := by
  decide

/-- C1 (amended): the order between equal-karma users is deterministic,
but the stable secondary key is the karma-dict insertion order (users
first credited from the post-like aggregation, then users first credited
from the comment-like aggregation), not ascending userId: two tied
entries appear in the sorted list in their `user_karma` order, and the
emitted leaderboard is the first 5 entries of that sorted list. -/
theorem leaderboard_tie_stable (now : Int) (P C : List LikeEvent)
    (u v k : Nat) (h : [(u, k), (v, k)] <+ user_karma now P C) :
    [(u, k), (v, k)] <+ sortDesc (user_karma now P C) ∧
    leaderboard now P C = (sortDesc (user_karma now P C)).take 5 :=
  ⟨sortDesc_stable u v k _ h, rfl⟩

/-- C1 witness: the amended theorem applied to the tied example. -/
theorem leaderboard_tie_stable_witness :
    [(9, 5), (1, 5)] <+ user_karma 1000000 [⟨100, 9, 996400⟩]
        [⟨101, 1, 996400⟩, ⟨102, 1, 996400⟩, ⟨103, 1, 996400⟩,
         ⟨104, 1, 996400⟩, ⟨105, 1, 996400⟩] ∧
    ([(9, 5), (1, 5)] <+ sortDesc (user_karma 1000000 [⟨100, 9, 996400⟩]
        [⟨101, 1, 996400⟩, ⟨102, 1, 996400⟩, ⟨103, 1, 996400⟩,
         ⟨104, 1, 996400⟩, ⟨105, 1, 996400⟩]) ∧
     leaderboard 1000000 [⟨100, 9, 996400⟩]
        [⟨101, 1, 996400⟩, ⟨102, 1, 996400⟩, ⟨103, 1, 996400⟩,
         ⟨104, 1, 996400⟩, ⟨105, 1, 996400⟩] =
       (sortDesc (user_karma 1000000 [⟨100, 9, 996400⟩]
        [⟨101, 1, 996400⟩, ⟨102, 1, 996400⟩, ⟨103, 1, 996400⟩,
         ⟨104, 1, 996400⟩, ⟨105, 1, 996400⟩])).take 5) :=
  ⟨by decide,
   leaderboard_tie_stable 1000000 [⟨100, 9, 996400⟩]
     [⟨101, 1, 996400⟩, ⟨102, 1, 996400⟩, ⟨103, 1, 996400⟩,
      ⟨104, 1, 996400⟩, ⟨105, 1, 996400⟩] 9 1 5 (by decide)⟩

/-- C2: a comment whose parentId references a non-existent comment is a
dangling reference: it appears nowhere in the materialized forest, and
the pass is total, so malformed data cannot abort it. -/
theorem dangling_excluded_from_forest (cs : List CommentRec)
    (c : CommentRec) (p : Nat) (hc : c.parent = some p)
    (hp : p ∉ cs.map CommentRec.id) :
    ∀ n, InForest n (build_forest cs) → n.record ≠ c := by
  intro n hn
  obtain ⟨r, hr, hsn⟩ := hn
  exact dangling_not_in_materialize cs c p hc hp _ none (Or.inl rfl) r hr n hsn

/-- C2 witness: scenario B of the spec, the single comment
id 5 / parent 99 / t 5 with 99 nonexistent: the forest is empty and
comment 5 appears nowhere in it. -/
theorem dangling_excluded_from_forest_witness :
    (⟨5, 1, 10, some 99, "e", 5, 0⟩ : CommentRec).parent = some 99 ∧
    99 ∉ ([⟨5, 1, 10, some 99, "e", 5, 0⟩] : List CommentRec).map
        CommentRec.id ∧
    build_forest [⟨5, 1, 10, some 99, "e", 5, 0⟩] = [] ∧
    ∀ n, InForest n (build_forest [⟨5, 1, 10, some 99, "e", 5, 0⟩]) →
      n.record ≠ ⟨5, 1, 10, some 99, "e", 5, 0⟩ :=
  ⟨rfl, by decide, rfl,
   dangling_excluded_from_forest [⟨5, 1, 10, some 99, "e", 5, 0⟩]
     ⟨5, 1, 10, some 99, "e", 5, 0⟩ 99 rfl (by decide)⟩

/-- C3: for an input sorted by createdAt ascending (with the data-model
invariant of section 3 of the spec, unique ids), every node anywhere in
the forest has children equal to the subsequence of the input whose
parent is that node, hence ordered by createdAt ascending. -/
theorem forest_children_match_input (cs : List CommentRec)
    (hids : (cs.map CommentRec.id).Nodup)
    (hsorted : cs.Pairwise (fun a b => a.createdAt ≤ b.createdAt)) :
    ∀ n, InForest n (build_forest cs) →
      n.children.map CommentNode.record =
        cs.filter (fun c => c.parent == some n.record.id) ∧
      (n.children.map CommentNode.record).Pairwise
        (fun a b => a.createdAt ≤ b.createdAt) := by
  intro n hn
  obtain ⟨r, hr, hsn⟩ := hn
  have h := materialize_full cs hids (cs.length + 1) none [] rfl
    (by simp) (by simp) (by simp) (by simp) r hr n hsn
  refine ⟨h, ?_⟩
  rw [h]
  exact List.Pairwise.sublist (List.filter_sublist cs) hsorted

/-- C3 witness: scenario A of the spec. -/
theorem forest_children_match_input_witness :
    (([⟨1, 1, 10, none, "a", 1, 0⟩, ⟨2, 1, 11, some 1, "b", 2, 0⟩,
       ⟨3, 1, 12, some 1, "c", 3, 0⟩, ⟨4, 1, 13, some 2, "d", 4, 0⟩] :
        List CommentRec).map CommentRec.id).Nodup ∧
    ([⟨1, 1, 10, none, "a", 1, 0⟩, ⟨2, 1, 11, some 1, "b", 2, 0⟩,
      ⟨3, 1, 12, some 1, "c", 3, 0⟩, ⟨4, 1, 13, some 2, "d", 4, 0⟩] :
        List CommentRec).Pairwise (fun a b => a.createdAt ≤ b.createdAt) ∧
    ∀ n, InForest n (build_forest
        [⟨1, 1, 10, none, "a", 1, 0⟩, ⟨2, 1, 11, some 1, "b", 2, 0⟩,
         ⟨3, 1, 12, some 1, "c", 3, 0⟩, ⟨4, 1, 13, some 2, "d", 4, 0⟩]) →
      n.children.map CommentNode.record =
        [⟨1, 1, 10, none, "a", 1, 0⟩, ⟨2, 1, 11, some 1, "b", 2, 0⟩,
         ⟨3, 1, 12, some 1, "c", 3, 0⟩,
         ⟨4, 1, 13, some 2, "d", 4, 0⟩].filter
          (fun c => c.parent == some n.record.id) ∧
      (n.children.map CommentNode.record).Pairwise
        (fun a b => a.createdAt ≤ b.createdAt) :=
  ⟨by decide, by decide,
   forest_children_match_input
     [⟨1, 1, 10, none, "a", 1, 0⟩, ⟨2, 1, 11, some 1, "b", 2, 0⟩,
      ⟨3, 1, 12, some 1, "c", 3, 0⟩, ⟨4, 1, 13, some 2, "d", 4, 0⟩]
     (by decide) (by decide)⟩

/-- C4: the retention filter of step 1 keeps exactly the events with
createdAt at or after now - 24h: an event exactly at the boundary is
retained, an event strictly before it is not retained and its removal
from either stream leaves the leaderboard unchanged. -/
theorem window_boundary_inclusive (now : Int) (e : LikeEvent)
    (P C xs ys : List LikeEvent) :
    (e.createdAt = now - 86400 → e ∈ P → e ∈ P.filter (inWindow now)) ∧
    (e.createdAt < now - 86400 → e ∉ P.filter (inWindow now)) ∧
    (e.createdAt < now - 86400 →
      leaderboard now (xs ++ e :: ys) C = leaderboard now (xs ++ ys) C) ∧
    (e.createdAt < now - 86400 →
      leaderboard now P (xs ++ e :: ys) = leaderboard now P (xs ++ ys)) := by
  have hnot : e.createdAt < now - 86400 → inWindow now e = false := by
    intro h
    simp only [inWindow, decide_eq_false_iff_not, not_le]
    omega
  refine ⟨?_, ?_, ?_, ?_⟩
  · intro hb hm
    refine List.mem_filter.mpr ⟨hm, ?_⟩
    simp [inWindow, hb]
  · intro hlt hmem
    have h2 := (List.mem_filter.mp hmem).2
    rw [hnot hlt] at h2
    cases h2
  · intro hlt
    have hfil : (xs ++ e :: ys).filter (inWindow now) =
        (xs ++ ys).filter (inWindow now) := by
      simp [List.filter_append, List.filter_cons, hnot hlt]
    simp only [leaderboard, sorted_users, user_karma, post_karma,
      comment_karma, hfil]
  · intro hlt
    have hfil : (xs ++ e :: ys).filter (inWindow now) =
        (xs ++ ys).filter (inWindow now) := by
      simp [List.filter_append, List.filter_cons, hnot hlt]
    simp only [leaderboard, sorted_users, user_karma, post_karma,
      comment_karma, hfil]

/-- C4 witness: a boundary event is retained; removing a strictly older
event leaves the leaderboard unchanged. -/
theorem window_boundary_inclusive_witness :
    ((913600 : Int) = 1000000 - 86400 ∧
      (⟨1, 1, 913600⟩ : LikeEvent) ∈ ([⟨1, 1, 913600⟩] : List LikeEvent) ∧
      (⟨1, 1, 913600⟩ : LikeEvent) ∈
        ([⟨1, 1, 913600⟩] : List LikeEvent).filter (inWindow 1000000)) ∧
    ((0 : Int) < 1000000 - 86400 ∧
      leaderboard 1000000 ([] ++ (⟨2, 3, 0⟩ : LikeEvent) :: [⟨1, 1, 913600⟩])
          [] =
        leaderboard 1000000 ([] ++ [⟨1, 1, 913600⟩]) []) :=
  ⟨⟨by decide, by decide,
    (window_boundary_inclusive 1000000 ⟨1, 1, 913600⟩ [⟨1, 1, 913600⟩] []
      [] []).1 (by decide) (by decide)⟩,
   ⟨by decide,
    (window_boundary_inclusive 1000000 ⟨2, 3, 0⟩ [] [] []
      [⟨1, 1, 913600⟩]).2.2.1 (by decide)⟩⟩

/-- C5 counterexample: with six distinct users each earning one
qualifying comment-like, the emitted leaderboard keeps only the top 5
rows, whose karma sums to 5, not to the claimed
5 x (qualifying post-likes) + 1 x (qualifying comment-likes) = 6. -/
theorem karma_sum_truncated_cex :
    ((leaderboard 1000000 []
        [⟨101, 1, 996400⟩, ⟨102, 2, 996400⟩, ⟨103, 3, 996400⟩,
         ⟨104, 4, 996400⟩, ⟨105, 5, 996400⟩, ⟨106, 6, 996400⟩]).map
        Prod.snd).sum ≠
      5 * (([] : List LikeEvent).filter (inWindow 1000000)).length +
        ([⟨101, 1, 996400⟩, ⟨102, 2, 996400⟩, ⟨103, 3, 996400⟩,
          ⟨104, 4, 996400⟩, ⟨105, 5, 996400⟩,
          ⟨106, 6, 996400⟩].filter (inWindow 1000000)).length := by
  decide

/-- C5 (amended): the conservation law holds of the aggregation map
before top-5 truncation: the total karma summed over `user_karma` equals
5 x (qualifying post-likes) + 1 x (qualifying comment-likes); the
emitted leaderboard can sum to less because it keeps only 5 rows. -/
theorem user_karma_total_sum (now : Int) (P C : List LikeEvent) :
    ((user_karma now P C).map Prod.snd).sum =
      5 * (P.filter (inWindow now)).length +
        (C.filter (inWindow now)).length := by
  rw [show user_karma now P C =
      (post_karma now P ++ comment_karma now C).foldl
        (fun d p => upsertAdd d p.1 p.2) [] from rfl,
    snd_sum_merge_foldl]
  simp [List.sum_append, snd_sum_post_karma, comment_karma,
    snd_sum_groupCount]

/-- C6: filter-order independence: enlarging either stream by events
that all fall strictly before the window (the streams embed as
subsequences and the in-window event counts are unchanged) leaves the
leaderboard identical. -/
theorem filter_order_independence (now : Int) (P P1 C C1 : List LikeEvent)
    (hP : P <+ P1) (hC : C <+ C1)
    (hPw : (P1.filter (inWindow now)).length =
      (P.filter (inWindow now)).length)
    (hCw : (C1.filter (inWindow now)).length =
      (C.filter (inWindow now)).length) :
    leaderboard now P1 C1 = leaderboard now P C := by
  have h1 : P.filter (inWindow now) = P1.filter (inWindow now) :=
    (hP.filter (inWindow now)).eq_of_length hPw.symm
  have h2 : C.filter (inWindow now) = C1.filter (inWindow now) :=
    (hC.filter (inWindow now)).eq_of_length hCw.symm
  simp only [leaderboard, sorted_users, user_karma, post_karma,
    comment_karma]
  rw [← h1, ← h2]

/-- C6 witness: adding one out-of-window event to each stream leaves the
output unchanged. -/
theorem filter_order_independence_witness :
    ([⟨1, 1, 996400⟩] : List LikeEvent) <+ [⟨2, 3, 0⟩, ⟨1, 1, 996400⟩] ∧
    ([] : List LikeEvent) <+ [⟨4, 2, 100⟩] ∧
    (([⟨2, 3, 0⟩, ⟨1, 1, 996400⟩] : List LikeEvent).filter
        (inWindow 1000000)).length =
      (([⟨1, 1, 996400⟩] : List LikeEvent).filter (inWindow 1000000)).length ∧
    (([⟨4, 2, 100⟩] : List LikeEvent).filter (inWindow 1000000)).length =
      (([] : List LikeEvent).filter (inWindow 1000000)).length ∧
    leaderboard 1000000 [⟨2, 3, 0⟩, ⟨1, 1, 996400⟩] [⟨4, 2, 100⟩] =
      leaderboard 1000000 [⟨1, 1, 996400⟩] [] :=
  ⟨by decide, by decide, by decide, by decide,
   filter_order_independence 1000000 [⟨1, 1, 996400⟩]
     [⟨2, 3, 0⟩, ⟨1, 1, 996400⟩] [] [⟨4, 2, 100⟩]
     (by decide) (by decide) (by decide) (by decide)⟩

/-- C7: the leaderboard view reads `timezone.now()` internally (line 74),
so its output is not a function of the event streams alone: the same
streams produce different leaderboards at different clock values.  The
`now` argument of the embedding models the internally read clock; the
claim's explicitly-passed-now contract is what the code lacks. -/
theorem leaderboard_depends_on_clock :
    leaderboard 3600 [⟨100, 1, 0⟩] [] = [(1, 5)] ∧
    leaderboard 200000 [⟨100, 1, 0⟩] [] = [] := by
  decide

/-- C8 counterexample: the claim says a self-parented comment is placed
in the forest as a root-level fallback; in fact the forest for the
single self-parented comment id 7 is empty, so the comment is not a
root-level node. -/
theorem self_parent_not_root_cex :
    build_forest [⟨7, 1, 10, some 7, "x", 1, 0⟩] = [] ∧
    ¬ ∃ n ∈ build_forest [⟨7, 1, 10, some 7, "x", 1, 0⟩],
        n.record = ⟨7, 1, 10, some 7, "x", 1, 0⟩ := by
  constructor
  · rfl
  · rintro ⟨n, hn, -⟩
    rw [show build_forest [(⟨7, 1, 10, some 7, "x", 1, 0⟩ : CommentRec)] =
        [] from rfl] at hn
    cases hn

/-- C8 (amended): a self-parented comment never causes unbounded
recursion (the materialization is a total function) and, when ids are
unique, is excluded from the forest entirely — treated like a dangling
reference, not placed at root level. -/
theorem self_parent_excluded_from_forest (cs : List CommentRec)
    (c : CommentRec) (hmem : c ∈ cs) (hself : c.parent = some c.id)
    (hids : (cs.map CommentRec.id).Nodup) :
    ∀ n, InForest n (build_forest cs) → n.record ≠ c := by
  intro n hn
  obtain ⟨r, hr, hsn⟩ := hn
  exact self_parent_not_in_materialize cs c hmem hself hids _ none
    (by simp) r hr n hsn

/-- C8 witness: the amended theorem applied to the single self-parented
comment. -/
theorem self_parent_excluded_witness :
    (⟨7, 1, 10, some 7, "x", 1, 0⟩ : CommentRec) ∈
      ([⟨7, 1, 10, some 7, "x", 1, 0⟩] : List CommentRec) ∧
    (⟨7, 1, 10, some 7, "x", 1, 0⟩ : CommentRec).parent = some 7 ∧
    (([⟨7, 1, 10, some 7, "x", 1, 0⟩] : List CommentRec).map
        CommentRec.id).Nodup ∧
    ∀ n, InForest n (build_forest [⟨7, 1, 10, some 7, "x", 1, 0⟩]) →
      n.record ≠ ⟨7, 1, 10, some 7, "x", 1, 0⟩ :=
  ⟨by decide, rfl, by decide,
   self_parent_excluded_from_forest [⟨7, 1, 10, some 7, "x", 1, 0⟩]
     ⟨7, 1, 10, some 7, "x", 1, 0⟩ (by decide) rfl (by decide)⟩

/-- C9: calling like for a pair already in the Liked state answers the
distinguishable conflict outcome (HTTP 400, detail Already liked this
post), which is never equal to a success outcome, and leaves the
persisted like set unchanged, so no second like row is created. -/
theorem like_conflict_on_duplicate (likes : List (Nat × Nat))
    (user post : Nat) (h : (user, post) ∈ likes) :
    like likes user post =
      (likes, .conflict ("Already liked this post")) ∧
    ∀ d : String, (LikeOutcome.conflict ("Already liked this post")) ≠
      LikeOutcome.success d := by
  refine ⟨by simp [like, h], ?_⟩
  intro d hcon
  exact LikeOutcome.noConfusion hcon

/-- C9 witness: the duplicate-like conflict at a concrete state. -/
theorem like_conflict_on_duplicate_witness :
    ((1, 2) ∈ ([(1, 2)] : List (Nat × Nat))) ∧
    (like [(1, 2)] 1 2 =
        ([(1, 2)], .conflict ("Already liked this post")) ∧
      ∀ d : String, (LikeOutcome.conflict ("Already liked this post")) ≠
        LikeOutcome.success d) :=
  ⟨by decide, like_conflict_on_duplicate [(1, 2)] 1 2 (by decide)⟩

/-- C10: in the frontend like/unlike handlers, an API error message
containing the substring Already leaves the error state untouched
(nothing is surfaced), while any other message is stored in the error
state, in all three catch blocks. -/
theorem already_errors_swallowed (message : List Char)
    (errState : Option (List Char)) :
    (containsSub ("Already".toList) message = true →
      handleLikePostCatch message errState = errState ∧
      handleLikePostDetailCatch message errState = errState ∧
      handleLikeCommentCatch message errState = errState) ∧
    (containsSub ("Already".toList) message = false →
      handleLikePostCatch message errState = some message ∧
      handleLikePostDetailCatch message errState = some message ∧
      handleLikeCommentCatch message errState = some message) := by
  constructor <;> intro h <;> simp at h <;>
    simp [handleLikePostCatch, handleLikePostDetailCatch,
      handleLikeCommentCatch, h]

/-- C10 witness: the conflict detail is swallowed, a network error is
surfaced. -/
theorem already_errors_swallowed_witness :
    (containsSub ("Already".toList) ("Already liked this post".toList) =
        true ∧
      handleLikePostCatch ("Already liked this post".toList) none = none) ∧
    (containsSub ("Already".toList) ("Network error".toList) = false ∧
      handleLikePostCatch ("Network error".toList) none =
        some ("Network error".toList)) :=
  ⟨⟨by decide,
    ((already_errors_swallowed ("Already liked this post".toList) none).1
      (by decide)).1⟩,
   ⟨by decide,
    ((already_errors_swallowed ("Network error".toList) none).2
      (by decide)).1⟩⟩

end CommunityFeed
